import Mathlib

/-!
Verification of the mailbox message store, its filter abstraction, the HTTP
server's delete route, and the TUI list/worker logic, as a shallow embedding
of the Rust sources.

Representation choices:
* A validated Rust Mailbox string (non-empty, '/'-separated, with non-empty
  segments free of '/' and '%') is represented by its list of segments
  (List String); the underlying string is recovered by Mailbox.name, which
  intercalates the segments with '/'.  String comparisons from the source
  (Ord on the inner String, starts_with) are modelled at the character-list
  level on Mailbox.name.
* Rust machine integers (i32 ids, i64 timestamps) are modelled as Int,
  usize counts as Nat; overflow never matters for the claims below.
* Strings handled character-by-character by the source (the comma-separated
  filter codec) are modelled as List Char.
-/

/-! ### Character-level string utilities

Rust's str::split(sep) and slice::join(sep), modelled on List Char.
split on the empty string yields one empty piece; join of one piece is the
piece itself. -/

/-- str::split(sep): always returns at least one (possibly empty) piece. -/
def splitChar (sep : Char) : List Char → List (List Char)
  | [] => [[]]
  | c :: rest =>
    match splitChar sep rest with
    | [] => [[]]
    | t :: ts => if c = sep then [] :: t :: ts else (c :: t) :: ts

/-- Vec::join(sep) for character-list pieces. -/
def joinSep (sep : Char) : List (List Char) → List Char
  | [] => []
  | [t] => t
  | t1 :: t2 :: ts => t1 ++ sep :: joinSep sep (t2 :: ts)

/-- Iterator::collect::<Result<Vec<_>>>() over a fallible map:
the first failure aborts the whole collection. -/
def collectResults (f : α → Option β) : List α → Option (List β)
  | [] => some []
  | a :: l =>
    match f a with
    | none => none
    | some b => (collectResults f l).map (fun bs => b :: bs)

/-- Lifecycle state of a message (src/database/src/message.rs, enum State). -/
inductive State where
  | Unread
  | Read
  | Archived
deriving DecidableEq

/-- Textual codec of State (Display / FromStr in message.rs), as characters. -/
def State.chars : State → List Char
  | .Unread => "unread".data
  | .Read => "read".data
  | .Archived => "archived".data

/-- FromStr for State: only the three exact strings parse. -/
def State.parseChars (cs : List Char) : Option State :=
  if cs = "unread".data then some .Unread
  else if cs = "read".data then some .Read
  else if cs = "archived".data then some .Archived
  else none

/-- A mailbox, represented by its '/'-separated segments
(src/database/src/mailbox.rs, struct Mailbox). -/
abbrev Mailbox := List String

/-- The underlying string of a mailbox, as a character list:
its segments joined by '/'. -/
def Mailbox.name (m : Mailbox) : List Char :=
  joinSep '/' (m.map String.data)

/-- Validity rules enforced by TryFrom<String> for Mailbox: non-empty, does
not start or end with '/', no "//", no '%'.  On the segment representation
this is: at least one segment, and every segment non-empty and free of
'/' and '%'. -/
def Mailbox.Valid (m : Mailbox) : Prop :=
  m ≠ [] ∧ ∀ s ∈ m, s ≠ "" ∧ '/' ∉ s.data ∧ '%' ∉ s.data

instance (m : Mailbox) : Decidable m.Valid := by
  unfold Mailbox.Valid; infer_instance

/-- Mailbox::iter_ancestors: for "a/b/c" yields "a", "a/b", "a/b/c"
(mailbox.rs lines 13-16: sections[0..=index].join("/") for each index). -/
def Mailbox.iter_ancestors (m : Mailbox) : List Mailbox :=
  (List.range m.length).map (fun index => m.take (index + 1))

/-- starts_with(format!("{mailbox}/")) from MessageFilter::matches_message,
at the character level of the underlying strings. -/
def Mailbox.startsWithSlash (big pre : Mailbox) : Bool :=
  (pre.name ++ ['/']).isPrefixOf big.name

/-- A persisted message (src/database/src/message.rs, struct Message). -/
structure Message where
  id : Int
  timestamp : Int
  mailbox : Mailbox
  content : String
  state : State
deriving DecidableEq

/-- A pending message (src/database/src/new_message.rs, struct NewMessage). -/
structure NewMessage where
  mailbox : Mailbox
  content : String
  state : Option State
deriving DecidableEq

/-- Composable message filter (src/database/src/message_filter.rs,
struct MessageFilter): optional id set, mailbox subtree, state set. -/
structure MessageFilter where
  ids : Option (List Int) := none
  mailbox : Option Mailbox := none
  states : Option (List State) := none
deriving DecidableEq

namespace MessageFilter

/-- MessageFilter::new(). -/
def new : MessageFilter := {}

/-- MessageFilter::with_ids. -/
def with_ids (f : MessageFilter) (ids : List Int) : MessageFilter :=
  { f with ids := some ids }

/-- MessageFilter::with_mailbox. -/
def with_mailbox (f : MessageFilter) (m : Mailbox) : MessageFilter :=
  { f with mailbox := some m }

/-- MessageFilter::with_mailbox_option. -/
def with_mailbox_option (f : MessageFilter) (m : Option Mailbox) : MessageFilter :=
  match m with
  | some m => f.with_mailbox m
  | none => f

/-- MessageFilter::with_states. -/
def with_states (f : MessageFilter) (states : List State) : MessageFilter :=
  { f with states := some states }

/-- MessageFilter::matches_all (message_filter.rs lines 127-131). -/
def matches_all (f : MessageFilter) : Bool :=
  f.ids.isNone && f.mailbox.isNone && f.states.isNone

/-- MessageFilter::matches_message (message_filter.rs lines 135-157).
The source is an early-return chain: each present constraint that fails
returns false, otherwise true; rendered here as a conjunction. -/
def matches_message (f : MessageFilter) (m : Message) : Bool :=
  (match f.ids with
   | some ids => ids.contains m.id
   | none => true) &&
  (match f.mailbox with
   | some mailbox => mailbox == m.mailbox || m.mailbox.startsWithSlash mailbox
   | none => true) &&
  (match f.states with
   | some states => states.contains m.state
   | none => true)

end MessageFilter

/-! ### The URL query-string codec of MessageFilter

serde_urlencoded presents each present field as one key=value pair whose
value is percent-decoded back verbatim, so the codec is modelled at the
level of the three optional value strings.  ids and states are rendered as
comma-separated lists (serialize_vec_to_csv / deserialize_vec_from_csv,
message_filter.rs lines 11-47); the mailbox value is the raw mailbox
string (the derived serde instances on Mailbox do not re-validate). -/

/-- One decimal digit as a character. -/
def digitChar (d : Nat) : Char := Char.ofNat (48 + d)

/-- Parse one decimal digit. -/
def parseDigit (c : Char) : Option Nat :=
  if '0' ≤ c ∧ c ≤ '9' then some (c.toNat - '0'.toNat) else none

/-- Decimal digits of a positive number, most significant first
(empty for 0; helper for natRepr). -/
def natToCharsAux (n : Nat) : List Char :=
  if h : n = 0 then []
  else natToCharsAux (n / 10) ++ [digitChar (n % 10)]
termination_by n
decreasing_by exact Nat.div_lt_self (Nat.pos_of_ne_zero h) (by norm_num)

/-- Decimal rendering of a Nat (ToString on unsigned values). -/
def natRepr (n : Nat) : List Char :=
  if n = 0 then ['0'] else natToCharsAux n

/-- Decimal rendering of an Int (ToString on i32 values). -/
def intRepr (x : Int) : List Char :=
  if x < 0 then '-' :: natRepr x.natAbs else natRepr x.toNat

/-- Digit-accumulation loop of integer FromStr. -/
def parseNatLoop (acc : Nat) : List Char → Option Nat
  | [] => some acc
  | c :: cs =>
    match parseDigit c with
    | none => none
    | some d => parseNatLoop (acc * 10 + d) cs

/-- FromStr for unsigned decimal numerals: non-empty all-digit strings. -/
def parseNatChars (cs : List Char) : Option Nat :=
  match cs with
  | [] => none
  | _ => parseNatLoop 0 cs

/-- FromStr for i32: an optional sign followed by digits.  The id values
that occur in filters are actual i32 row ids, so the i32 range check of
the source never fires and is not modelled. -/
def parseIntChars (cs : List Char) : Option Int :=
  if cs.head? = some '-' then (parseNatChars cs.tail).map (fun n => -(n : Int))
  else if cs.head? = some '+' then (parseNatChars cs.tail).map (fun n => (n : Int))
  else (parseNatChars cs).map (fun n => (n : Int))

/-- serialize_vec_to_csv (message_filter.rs lines 11-27): render each
element and join with ",". -/
def serialize_vec_to_csv (toStr : α → List Char) (v : List α) : List Char :=
  joinSep ',' (v.map toStr)

/-- deserialize_vec_from_csv (message_filter.rs lines 30-47): the empty
string is an empty list; otherwise split on ',' and parse every piece. -/
def deserialize_vec_from_csv (parse : List Char → Option α) (csv : List Char) :
    Option (List α) :=
  if csv = [] then some []
  else collectResults parse (splitChar ',' csv)

/-- The three optional percent-decoded field values of a serialized filter
(absent fields are omitted by skip_serializing_if = Option::is_none). -/
structure SerializedFilter where
  ids : Option (List Char)
  mailbox : Option (List Char)
  states : Option (List Char)
deriving DecidableEq

/-- Serde serialization of MessageFilter to its query-string field values. -/
def MessageFilter.serializeUrl (f : MessageFilter) : SerializedFilter :=
  { ids := f.ids.map (serialize_vec_to_csv intRepr)
    mailbox := f.mailbox.map Mailbox.name
    states := f.states.map (serialize_vec_to_csv State.chars) }

/-- The mailbox carried by a raw string, in segment representation
(the derived Deserialize stores the string verbatim; on the segment
representation that is the '/'-decomposition). -/
def mailboxOfName (cs : List Char) : Mailbox :=
  (splitChar '/' cs).map (fun l => ⟨l⟩)

/-- Deserialization of one optional csv field: an absent field stays
absent, a present field must parse. -/
def deserializeField (parse : List Char → Option α) :
    Option (List Char) → Option (Option (List α))
  | none => some none
  | some csv => (deserialize_vec_from_csv parse csv).map some

/-- Serde deserialization of MessageFilter from its query-string field
values. -/
def MessageFilter.deserializeUrl (s : SerializedFilter) : Option MessageFilter := do
  let ids ← deserializeField parseIntChars s.ids
  let states ← deserializeField State.parseChars s.states
  pure { ids := ids, mailbox := s.mailbox.map mailboxOfName, states := states }

/-! ### The message store

The single message table is modelled as the list of its rows in insertion
order together with the next AUTOINCREMENT id, the current value of
CURRENT_TIMESTAMP, and a count of SQL statements issued so far (to make
"no query was issued" expressible).  The operations embed
Database::add_messages / load_messages / change_state / delete_messages
from src/database/src/database.rs. -/

structure DbState where
  rows : List Message
  nextId : Int
  now : Int
  queries : Nat
deriving DecidableEq

/-- The table invariant maintained by AUTOINCREMENT: rows are stored in
strictly increasing id order and every stored id is below the next id. -/
def DbState.Wf (db : DbState) : Prop :=
  (db.rows.map Message.id).Pairwise (· < ·) ∧ ∀ m ∈ db.rows, m.id < db.nextId

instance (db : DbState) : Decidable db.Wf := by
  unfold DbState.Wf; infer_instance

/-- sort_by_key(|message| -message.timestamp.timestamp()): a stable sort
with newest timestamps first (database.rs lines 209 and 226). -/
def sortByTimestampDesc (l : List Message) : List Message :=
  l.mergeSort (fun a b => decide (b.timestamp ≤ a.timestamp))

namespace Database

/-- Database::validate_message (database.rs lines 257-264). -/
def validate_message (m : NewMessage) : Except String Unit :=
  if m.content = "" then .error "content must not be empty" else .ok ()

/-- Database::add_messages (database.rs lines 139-172): empty input
returns empty output without issuing a query; otherwise each message is
validated (in the reversed iteration order of the source loop) before the
single INSERT..RETURNING query is issued; the batch is inserted in reverse
order, AUTOINCREMENT assigns ascending ids and RETURNING yields rows in
insertion order, and the result is reversed back to the input order. -/
def add_messages (db : DbState) (messages : List NewMessage) :
    DbState × Except String (List Message) :=
  if messages = [] then (db, .ok [])
  else if messages.reverse.all (fun m => !(m.content == "")) then
    let inserted := (messages.reverse).enum.map (fun p =>
      { id := db.nextId + p.1
        timestamp := db.now
        mailbox := p.2.mailbox
        content := p.2.content
        state := p.2.state.getD State.Unread : Message })
    ({ db with
        rows := db.rows ++ inserted
        nextId := db.nextId + messages.length
        queries := db.queries + 1 },
      .ok inserted.reverse)
  else (db, .error "content must not be empty")

/-- Database::load_messages (database.rs lines 175-188):
SELECT * WHERE filter ORDER BY id DESC. -/
def load_messages (db : DbState) (filter : MessageFilter) : List Message :=
  (db.rows.filter (fun m => filter.matches_message m)).mergeSort
    (fun a b => decide (b.id ≤ a.id))

/-- Database::change_state (database.rs lines 192-211): UPDATE the state of
every matching row, RETURNING the modified rows, sorted newest-first by
timestamp on the client (SQLite cannot order RETURNING results). -/
def change_state (db : DbState) (filter : MessageFilter) (new_state : State) :
    DbState × List Message :=
  ({ db with
      rows := db.rows.map (fun m =>
        if filter.matches_message m then { m with state := new_state } else m)
      queries := db.queries + 1 },
    sortByTimestampDesc
      ((db.rows.filter (fun m => filter.matches_message m)).map
        (fun m => { m with state := new_state })))

/-- Database::delete_messages (database.rs lines 214-228): DELETE every
matching row, RETURNING the deleted rows, sorted newest-first by timestamp
on the client. -/
def delete_messages (db : DbState) (filter : MessageFilter) :
    DbState × List Message :=
  ({ db with
      rows := db.rows.filter (fun m => !(filter.matches_message m))
      queries := db.queries + 1 },
    sortByTimestampDesc (db.rows.filter (fun m => filter.matches_message m)))

end Database

/-! ### The HTTP server's DELETE /messages route -/

/-- The typed query-string form of a filter
(src/http_server/src/filter.rs, struct Filter): raw comma-separated ids
and states values plus a serde-deserialized (unvalidated) mailbox. -/
structure QueryFilter where
  ids : Option (List Char)
  mailbox : Option Mailbox
  states : Option (List Char)
deriving DecidableEq

/-- TryFrom<Filter> for MessageFilter (filter.rs lines 15-45): a present
ids or states value is split on ',' and every piece must parse (there is
no empty-string special case here, unlike the library codec). -/
def QueryFilter.tryIntoMessageFilter (q : QueryFilter) : Option MessageFilter := do
  let f := MessageFilter.new
  let f ← match q.ids with
    | none => pure f
    | some cs => (collectResults parseIntChars (splitChar ',' cs)).map f.with_ids
  let f := match q.mailbox with
    | some m => f.with_mailbox m
    | none => f
  let f ← match q.states with
    | none => pure f
    | some cs => (collectResults State.parseChars (splitChar ',' cs)).map f.with_states
  pure f

/-- The delete_messages route handler (src/http_server/src/main.rs lines
92-103): parse the query filter (400 on failure), reject an unconstrained
filter with 400 before touching the store, otherwise delete.  The result
is the HTTP status code together with the store state afterwards. -/
def delete_messages_route (db : DbState) (q : QueryFilter) : Nat × DbState :=
  match q.tryIntoMessageFilter with
  | none => (400, db)
  | some mf =>
    if mf.matches_all then (400, db)
    else
      let (db2, _deleted) := Database.delete_messages db mf
      (200, db2)

/-! ### The TUI mailbox tree (src/cli/src/tui/app.rs) -/

/-- One aggregation row of load_mailboxes (struct MailboxInfo). -/
structure MailboxInfo where
  name : Mailbox
  message_count : Nat
deriving DecidableEq

/-- One row of the TUI mailbox tree (struct Mailbox in tui/app.rs; renamed
here because that file shadows database::Mailbox). -/
structure MailboxRow where
  mailbox : Mailbox
  depth : Nat
  message_count : Nat
deriving DecidableEq

/-- mailboxes.entry(full_name).or_insert(Mailbox with count 0).message_count
+= count: the HashMap keyed by mailbox is modelled as an association list
(its iteration order is irrelevant because build_mailbox_list sorts). -/
def bumpRow (rows : List MailboxRow) (name : Mailbox) (depth count : Nat) :
    List MailboxRow :=
  match rows with
  | [] => [⟨name, depth, count⟩]
  | r :: rs =>
    if r.mailbox = name then ⟨r.mailbox, r.depth, r.message_count + count⟩ :: rs
    else r :: bumpRow rs name depth count

/-- The body of the outer loop of App::build_mailbox_list: walk the
enumerated ancestors of one MailboxInfo entry, inserting or incrementing
each ancestor's row (depth = ancestor index). -/
def addMailboxInfo (rows : List MailboxRow) (info : MailboxInfo) : List MailboxRow :=
  (info.name.iter_ancestors.enum).foldl
    (fun rows p => bumpRow rows p.2 p.1 info.message_count) rows

/-- The mailbox-name ordering used by the final sort_by:
Ord on the inner String, i.e. lexicographic codepoint order on the name. -/
def rowNameLe (r1 r2 : MailboxRow) : Bool :=
  decide (r1.mailbox.name ≤ r2.mailbox.name)

/-- App::build_mailbox_list (app.rs lines 110-132): accumulate every
ancestor of every entry with summed counts, then sort rows by mailbox
name ascending. -/
def build_mailbox_list (mailbox_sizes : List MailboxInfo) : List MailboxRow :=
  (mailbox_sizes.foldl addMailboxInfo []).mergeSort rowNameLe

/-- The count sum a mailbox tree row should carry: the total count of the
input entries whose mailbox has this row's mailbox among its ancestors
(that is, equals it or is a descendant of it). -/
def countFor (infos : List MailboxInfo) (a : Mailbox) : Nat :=
  ((infos.filter (fun i => a ∈ i.name.iter_ancestors)).map MailboxInfo.message_count).sum

/-- App::remove_messages_from_mailboxes, first loop (app.rs lines 304-309):
the HashMap of per-mailbox decrements, modelled as a function; every
removed message contributes one to each of its mailbox's ancestors. -/
def countDecreases (messages : List Message) : Mailbox → Nat :=
  messages.foldl
    (fun acc m => m.mailbox.iter_ancestors.foldl
      (fun acc mb => fun x => if x = mb then acc x + 1 else acc x) acc)
    (fun _ => 0)

/-- App::remove_messages_from_mailboxes, second part (app.rs lines
310-333): decrease each row's count with usize saturating subtraction and
drop rows that reach zero.  (The surrounding replace_items call only
affects the cursor, which is modelled separately.) -/
def remove_messages_from_mailboxes (rows : List MailboxRow) (messages : List Message) :
    List MailboxRow :=
  rows.filterMap (fun r =>
    let message_count := r.message_count - countDecreases messages r.mailbox
    if message_count = 0 then none
    else some ⟨r.mailbox, r.depth, message_count⟩)

/-! ### NavigableList (src/src/tui/navigable_list.rs) -/

/-- A NavigableList: items plus an optional cursor index.  Keys (u64 in
the source) are Nat; the key function stands for the Keyed trait. -/
structure NList (α : Type) where
  items : List α
  cursor : Option Nat
deriving DecidableEq

namespace NavigableList

/-- The key-to-index map of the new items (navigable_list.rs lines 90-96:
enumerate().map(|(index, item)| (key, index)).collect::<HashMap>(); for a
duplicated key the last insertion wins). -/
def new_keys (key : α → Nat) (new_items : List α) (k : Nat) : Option Nat :=
  (((new_items.enum).filter (fun p => key p.2 == k)).getLast?).map Prod.fst

/-- NavigableList::replace_items (navigable_list.rs lines 77-104):
collect the keys of the old items from the cursor position onward, swap in
the new items, and move the cursor to the first old candidate key that the
new key map contains. -/
def replace_items (key : α → Nat) (l : NList α) (new_items : List α) : NList α :=
  let cursor_candidates : List Nat :=
    match l.cursor with
    | none => []
    | some index => (l.items.drop index).map key
  { items := new_items
    cursor := cursor_candidates.findSome? (new_keys key new_items) }

end NavigableList

/-! ### The worker's stale-response rule
(src/cli/src/tui/worker.rs lines 94-113, monotonic_counter.rs)

One MonotonicCounter guards one kind of load.  A load task calls next()
when it starts (start t) and, when its query completes, compares its
stamped id against last() and sends its response only on equality
(check t).  Executions are modelled as interleavings of these events;
counter.next() is fetch_add(1)+1 and counter.last() reads the current
value, so the counter value is the number of starts so far. -/

inductive WEvent where
  | start (t : Nat)
  | check (t : Nat)
deriving DecidableEq

/-- Worker state: the counter value, each task's stamped request id, and
the tasks whose responses were sent on the response channel. -/
structure WorkerState where
  counter : Nat
  reqId : Nat → Option Nat
  sent : List Nat

/-- Initial worker state: AtomicU64::new(0), nothing stamped or sent. -/
def WorkerState.init : WorkerState :=
  { counter := 0, reqId := fun _ => none, sent := [] }

/-- One event: start stamps the task with the post-increment counter
value; check sends the response iff the stamped id still equals the
counter (worker.rs: if message_counter.last() == req_id). -/
def wstep (s : WorkerState) : WEvent → WorkerState
  | .start t =>
    { counter := s.counter + 1
      reqId := fun u => if u = t then some (s.counter + 1) else s.reqId u
      sent := s.sent }
  | .check t =>
    if s.reqId t = some s.counter then { s with sent := s.sent ++ [t] } else s

/-- Run a whole interleaving from the initial state. -/
def wrun (tr : List WEvent) : WorkerState :=
  tr.foldl wstep .init

/-- C1: MessageFilter::matches_message returns true iff every present
constraint holds: present ids contain the message id; a present mailbox
equals the message's mailbox or the message's mailbox starts with it
followed by '/'; present states contain the message state.  A filter with
no present fields therefore matches every message. -/
theorem matches_message_iff (f : MessageFilter) (m : Message) :
    f.matches_message m = true ↔
      ((∀ ids, f.ids = some ids → m.id ∈ ids) ∧
       (∀ mb, f.mailbox = some mb →
         (mb = m.mailbox ∨ m.mailbox.startsWithSlash mb = true)) ∧
       (∀ states, f.states = some states → m.state ∈ states)) := by
  unfold MessageFilter.matches_message
  rcases f with ⟨ids, mailbox, states⟩
  constructor
  · intro h
    simp only [Bool.and_eq_true] at h
    obtain ⟨⟨h1, h2⟩, h3⟩ := h
    refine ⟨?_, ?_, ?_⟩
    · intro l hl
      cases hl
      simpa using h1
    · intro mb hmb
      cases hmb
      simp only [Bool.or_eq_true, beq_iff_eq] at h2
      tauto
    · intro l hl
      cases hl
      simpa using h3
  · rintro ⟨h1, h2, h3⟩
    simp only [Bool.and_eq_true]
    refine ⟨⟨?_, ?_⟩, ?_⟩
    · cases ids with
      | none => rfl
      | some l => simpa using h1 l rfl
    · cases mailbox with
      | none => rfl
      | some mb =>
        have := h2 mb rfl
        simp only [Bool.or_eq_true, beq_iff_eq]
        tauto
    · cases states with
      | none => rfl
      | some l => simpa using h3 l rfl

/-! ### Lemmas for the url codec -/

theorem parseDigit_digitChar {d : Nat} (h : d < 10) :
    parseDigit (digitChar d) = some d := by
  interval_cases d <;> decide

theorem digitChar_ne {d : Nat} (h : d < 10) :
    digitChar d ≠ '-' ∧ digitChar d ≠ '+' ∧ digitChar d ≠ ',' := by
  interval_cases d <;> exact ⟨by decide, by decide, by decide⟩

theorem natToCharsAux_mem (n : Nat) :
    ∀ c ∈ natToCharsAux n, ∃ d, d < 10 ∧ c = digitChar d := by
  induction n using Nat.strong_induction_on with
  | _ n ih =>
    rw [natToCharsAux]
    split
    · simp
    · next h =>
      intro c hc
      rw [List.mem_append] at hc
      rcases hc with hc | hc
      · exact ih _ (Nat.div_lt_self (Nat.pos_of_ne_zero h) (by norm_num)) c hc
      · simp only [List.mem_singleton] at hc
        exact ⟨n % 10, Nat.mod_lt _ (by norm_num), hc⟩

theorem natToCharsAux_ne_nil {n : Nat} (h : n ≠ 0) : natToCharsAux n ≠ [] := by
  rw [natToCharsAux]
  simp [h]

theorem parseNatLoop_append (acc : Nat) (xs ys : List Char) :
    parseNatLoop acc (xs ++ ys) =
      match parseNatLoop acc xs with
      | none => none
      | some a => parseNatLoop a ys := by
  induction xs generalizing acc with
  | nil => simp [parseNatLoop]
  | cons c cs ih =>
    cases hc : parseDigit c with
    | none => simp [parseNatLoop, hc]
    | some d => simp [parseNatLoop, hc, ih]

theorem parseNatLoop_natToCharsAux (n : Nat) : ∀ acc : Nat,
    parseNatLoop acc (natToCharsAux n) =
      some (acc * 10 ^ (natToCharsAux n).length + n) := by
  induction n using Nat.strong_induction_on with
  | _ n ih =>
    intro acc
    by_cases h : n = 0
    · subst h
      rw [natToCharsAux]
      simp [parseNatLoop]
    · rw [natToCharsAux, dif_neg h, parseNatLoop_append,
        ih (n / 10) (Nat.div_lt_self (Nat.pos_of_ne_zero h) (by norm_num)) acc]
      simp only [parseNatLoop, parseDigit_digitChar (Nat.mod_lt n (by norm_num)),
        List.length_append, List.length_singleton, Option.some.injEq]
      have hp : (10 : Nat) ^ ((natToCharsAux (n / 10)).length + 1) =
          10 ^ (natToCharsAux (n / 10)).length * 10 := pow_succ 10 _
      rw [hp]
      have key : ∀ k : Nat, (acc * k + n / 10) * 10 + n % 10 = acc * (k * 10) + n := by
        intro k
        have h2 : (acc * k + n / 10) * 10 + n % 10 =
            acc * (k * 10) + (10 * (n / 10) + n % 10) := by ring
        rw [h2, Nat.div_add_mod]
      exact key _

theorem parseNatChars_natRepr (n : Nat) : parseNatChars (natRepr n) = some n := by
  by_cases h : n = 0
  · subst h
    decide
  · unfold natRepr
    rw [if_neg h]
    cases hcs : natToCharsAux n with
    | nil => exact absurd hcs (natToCharsAux_ne_nil h)
    | cons c cs =>
      have hloop := parseNatLoop_natToCharsAux n 0
      rw [hcs] at hloop
      simpa [parseNatChars] using hloop

theorem natRepr_mem (n : Nat) :
    ∀ c ∈ natRepr n, ∃ d, d < 10 ∧ c = digitChar d := by
  unfold natRepr
  split
  · intro c hc
    simp only [List.mem_singleton] at hc
    exact ⟨0, by norm_num, by rw [hc]; rfl⟩
  · exact natToCharsAux_mem n

theorem natRepr_head_ne (n : Nat) :
    (natRepr n).head? ≠ some '-' ∧ (natRepr n).head? ≠ some '+' := by
  cases hcs : natRepr n with
  | nil => simp
  | cons c cs =>
    have hc : c ∈ natRepr n := by rw [hcs]; exact List.mem_cons_self c cs
    obtain ⟨d, hd, rfl⟩ := natRepr_mem n c hc
    refine ⟨?_, ?_⟩ <;> simp only [List.head?_cons, ne_eq, Option.some.injEq]
    · exact (digitChar_ne hd).1
    · exact (digitChar_ne hd).2.1

theorem parseIntChars_intRepr (x : Int) : parseIntChars (intRepr x) = some x := by
  unfold intRepr
  split
  · next hx =>
    have h1 : parseIntChars ('-' :: natRepr x.natAbs) =
        (parseNatChars (natRepr x.natAbs)).map (fun n => -(n : Int)) := by
      unfold parseIntChars
      simp
    rw [h1, parseNatChars_natRepr]
    refine congrArg some ?_
    show -(x.natAbs : Int) = x
    omega
  · next hx =>
    unfold parseIntChars
    rw [if_neg (natRepr_head_ne _).1, if_neg (natRepr_head_ne _).2,
      parseNatChars_natRepr]
    refine congrArg some ?_
    show (x.toNat : Int) = x
    omega

theorem intRepr_ne_nil (x : Int) : intRepr x ≠ [] := by
  unfold intRepr natRepr
  split
  · simp
  · split
    · simp
    · exact natToCharsAux_ne_nil (by assumption)

theorem comma_not_mem_natRepr (n : Nat) : ',' ∉ natRepr n := by
  intro hc
  obtain ⟨d, hd, h⟩ := natRepr_mem n ',' hc
  exact (digitChar_ne hd).2.2 h.symm

theorem comma_not_mem_intRepr (x : Int) : ',' ∉ intRepr x := by
  unfold intRepr
  split
  · simp only [List.mem_cons]
    rintro (h | h)
    · exact absurd h (by decide)
    · exact comma_not_mem_natRepr _ h
  · exact comma_not_mem_natRepr _

theorem splitChar_ne_nil (sep : Char) (cs : List Char) : splitChar sep cs ≠ [] := by
  cases cs with
  | nil => simp [splitChar]
  | cons c rest =>
    rcases h : splitChar sep rest with _ | ⟨t, ts⟩
    · simp [splitChar, h]
    · simp only [splitChar, h]
      split <;> simp

theorem splitChar_of_not_mem {sep : Char} {xs : List Char} (h : sep ∉ xs) :
    splitChar sep xs = [xs] := by
  induction xs with
  | nil => rfl
  | cons c rest ih =>
    have hc : c ≠ sep := by rintro rfl; exact h (List.mem_cons_self _ _)
    have hr : sep ∉ rest := fun hm => h (List.mem_cons_of_mem _ hm)
    simp [splitChar, ih hr, hc]

theorem splitChar_append {sep : Char} {xs : List Char} (ys : List Char)
    (h : sep ∉ xs) :
    splitChar sep (xs ++ sep :: ys) = xs :: splitChar sep ys := by
  induction xs with
  | nil =>
    simp only [List.nil_append, splitChar]
    rcases hy : splitChar sep ys with _ | ⟨t, ts⟩
    · exact absurd hy (splitChar_ne_nil _ _)
    · simp
  | cons c rest ih =>
    have hc : c ≠ sep := by rintro rfl; exact h (List.mem_cons_self _ _)
    have hr : sep ∉ rest := fun hm => h (List.mem_cons_of_mem _ hm)
    simp [splitChar, ih hr, hc]

theorem splitChar_joinSep {sep : Char} {tokens : List (List Char)}
    (hne : tokens ≠ []) (h : ∀ t ∈ tokens, sep ∉ t) :
    splitChar sep (joinSep sep tokens) = tokens := by
  induction tokens with
  | nil => exact absurd rfl hne
  | cons t ts ih =>
    cases ts with
    | nil => simpa [joinSep] using splitChar_of_not_mem (h t (by simp))
    | cons t2 ts2 =>
      have h1 : sep ∉ t := h t (by simp)
      rw [joinSep, splitChar_append _ h1,
        ih (by simp) (fun u hu => h u (List.mem_cons_of_mem _ hu))]

theorem joinSep_ne_nil {sep : Char} {tokens : List (List Char)}
    (hne : tokens ≠ []) (h : ∀ t ∈ tokens, t ≠ []) : joinSep sep tokens ≠ [] := by
  cases tokens with
  | nil => exact absurd rfl hne
  | cons t ts =>
    cases ts with
    | nil => exact h t (by simp)
    | cons t2 ts2 => simp [joinSep]

theorem collectResults_map (f : α → Option β) (g : β → α) (l : List β)
    (h : ∀ b ∈ l, f (g b) = some b) : collectResults f (l.map g) = some l := by
  induction l with
  | nil => rfl
  | cons b bs ih =>
    simp only [List.map_cons, collectResults, h b (by simp)]
    rw [ih (fun x hx => h x (List.mem_cons_of_mem _ hx))]
    rfl

theorem deserialize_serialize_vec {toStr : α → List Char}
    {parse : List Char → Option α} (v : List α) (hv : v ≠ [])
    (htok : ∀ a ∈ v, toStr a ≠ [] ∧ ',' ∉ toStr a ∧ parse (toStr a) = some a) :
    deserialize_vec_from_csv parse (serialize_vec_to_csv toStr v) = some v := by
  unfold serialize_vec_to_csv deserialize_vec_from_csv
  have hmapne : v.map toStr ≠ [] := by simpa using hv
  have hnn : ∀ t ∈ v.map toStr, t ≠ [] := by
    intro t ht
    obtain ⟨a, ha, rfl⟩ := List.mem_map.mp ht
    exact (htok a ha).1
  have hcm : ∀ t ∈ v.map toStr, ',' ∉ t := by
    intro t ht
    obtain ⟨a, ha, rfl⟩ := List.mem_map.mp ht
    exact (htok a ha).2.1
  rw [if_neg (joinSep_ne_nil hmapne hnn), splitChar_joinSep hmapne hcm]
  exact collectResults_map _ _ _ (fun b hb => (htok b hb).2.2)

theorem mailboxOfName_name {m : Mailbox} (h : m.Valid) : mailboxOfName m.name = m := by
  unfold mailboxOfName Mailbox.name
  rw [splitChar_joinSep (by simpa using h.1) ?_]
  · rw [List.map_map,
      show ((fun l => (⟨l⟩ : String)) ∘ String.data) = id from
        funext fun s => by cases s; rfl,
      List.map_id]
  · intro t ht
    obtain ⟨s, hs, rfl⟩ := List.mem_map.mp ht
    exact (h.2 s hs).2.1

theorem state_token (s : State) :
    State.chars s ≠ [] ∧ ',' ∉ State.chars s ∧
      State.parseChars (State.chars s) = some s := by
  cases s <;> exact ⟨by decide, by decide, by decide⟩

/-- C2: for every filter whose present fields are non-empty (and whose
mailbox, when present, satisfies the Mailbox validity invariant of the
source type), deserializing the serialized query form yields back an equal
filter; moreover the query "states=" (an empty states value) deserializes
to a filter with a present but empty states list, which differs from the
filter with an absent states field. -/
theorem filter_url_roundtrip (f : MessageFilter)
    (hids : ∀ l, f.ids = some l → l ≠ [])
    (hmb : ∀ m, f.mailbox = some m → m.Valid)
    (hst : ∀ l, f.states = some l → l ≠ []) :
    MessageFilter.deserializeUrl f.serializeUrl = some f ∧
    MessageFilter.deserializeUrl ⟨none, none, some []⟩ =
      some { ids := none, mailbox := none, states := some [] } ∧
    ({ ids := none, mailbox := none, states := some [] } : MessageFilter) ≠
      MessageFilter.new := by
  refine ⟨?_, rfl, by decide⟩
  rcases f with ⟨ids, mailbox, states⟩
  have hi : deserializeField parseIntChars
      (Option.map (serialize_vec_to_csv intRepr) ids) = some ids := by
    cases ids with
    | none => rfl
    | some l =>
      simp only [Option.map_some', deserializeField]
      rw [deserialize_serialize_vec l (hids l rfl)
        (fun a _ => ⟨intRepr_ne_nil a, comma_not_mem_intRepr a, parseIntChars_intRepr a⟩)]
      rfl
  have hs : deserializeField State.parseChars
      (Option.map (serialize_vec_to_csv State.chars) states) = some states := by
    cases states with
    | none => rfl
    | some l =>
      simp only [Option.map_some', deserializeField]
      rw [deserialize_serialize_vec l (hst l rfl) (fun a _ => state_token a)]
      rfl
  have hm : (Option.map Mailbox.name mailbox).map mailboxOfName = mailbox := by
    cases mailbox with
    | none => rfl
    | some m => simp [mailboxOfName_name (hmb m rfl)]
  simp only [MessageFilter.serializeUrl, MessageFilter.deserializeUrl, hi, hs,
    Option.some_bind, hm]
  rfl

/-- Witness for C2 at the filter of spec scenario 6:
ids [1,2,3], mailbox "foo", states [unread, read]. -/
theorem filter_url_roundtrip_witness :
    MessageFilter.deserializeUrl (MessageFilter.serializeUrl
        { ids := some [1, 2, 3], mailbox := some ["foo"],
          states := some [State.Unread, State.Read] }) =
      some { ids := some [1, 2, 3], mailbox := some ["foo"],
             states := some [State.Unread, State.Read] } ∧
    MessageFilter.deserializeUrl ⟨none, none, some []⟩ =
      some { ids := none, mailbox := none, states := some [] } ∧
    ({ ids := none, mailbox := none, states := some [] } : MessageFilter) ≠
      MessageFilter.new :=
  filter_url_roundtrip _ (fun l hl => by cases hl; decide)
    (fun m hm => by cases hm; decide) (fun l hl => by cases hl; decide)

/-! ### Lemmas and claims for the store operations -/

theorem sortByTimestampDesc_pairwise (l : List Message) :
    ((sortByTimestampDesc l).map Message.timestamp).Pairwise (· ≥ ·) := by
  unfold sortByTimestampDesc
  rw [List.pairwise_map]
  have h := @List.sorted_mergeSort Message
    (fun a b => decide (b.timestamp ≤ a.timestamp))
    (by intro a b c hab hbc; simp only [decide_eq_true_eq] at *; exact le_trans hbc hab)
    (by intro a b; simp only [Bool.or_eq_true, decide_eq_true_eq]; exact le_total _ _)
    l
  exact h.imp (by intro a b hab; simpa using hab)

theorem sortById_pairwise (l : List Message) :
    ((l.mergeSort (fun a b => decide (b.id ≤ a.id))).map Message.id).Pairwise (· ≥ ·) := by
  rw [List.pairwise_map]
  have h := @List.sorted_mergeSort Message
    (fun a b => decide (b.id ≤ a.id))
    (by intro a b c hab hbc; simp only [decide_eq_true_eq] at *; exact le_trans hbc hab)
    (by intro a b; simp only [Bool.or_eq_true, decide_eq_true_eq]; exact le_total _ _)
    l
  exact h.imp (by intro a b hab; simpa using hab)

/-- C7: load_messages returns its rows sorted by id strictly descending
(ids are unique under the table invariant), and change_state and
delete_messages return the affected rows sorted by timestamp descending. -/
theorem query_result_ordering (db : DbState) (f : MessageFilter) (s : State)
    (hwf : db.Wf) :
    ((Database.load_messages db f).map Message.id).Pairwise (· > ·) ∧
    ((Database.change_state db f s).2.map Message.timestamp).Pairwise (· ≥ ·) ∧
    ((Database.delete_messages db f).2.map Message.timestamp).Pairwise (· ≥ ·) := by
  refine ⟨?_, sortByTimestampDesc_pairwise _, sortByTimestampDesc_pairwise _⟩
  unfold Database.load_messages
  have hsub : ((db.rows.filter (fun m => f.matches_message m)).map Message.id).Sublist
      (db.rows.map Message.id) := List.Sublist.map _ (List.filter_sublist _)
  have hlt : ((db.rows.filter (fun m => f.matches_message m)).map Message.id).Pairwise
      (· < ·) := List.Pairwise.sublist hsub hwf.1
  have hperm := List.mergeSort_perm (db.rows.filter (fun m => f.matches_message m))
    (fun a b => decide (b.id ≤ a.id))
  have hnodup : (((db.rows.filter (fun m => f.matches_message m)).mergeSort
      (fun a b => decide (b.id ≤ a.id))).map Message.id).Nodup :=
    ((hperm.map Message.id).symm).nodup (hlt.imp ne_of_lt)
  have hge := sortById_pairwise (db.rows.filter (fun m => f.matches_message m))
  exact (hge.and hnodup).imp (fun h => lt_of_le_of_ne h.1 (Ne.symm h.2))

/-- Witness for C7 on a concrete two-row store. -/
theorem query_result_ordering_witness :
    ((Database.load_messages ⟨[⟨1, 5, ["a"], "x", .Unread⟩, ⟨2, 7, ["b"], "y", .Read⟩], 3, 9, 0⟩
        MessageFilter.new).map Message.id).Pairwise (· > ·) ∧
    ((Database.change_state ⟨[⟨1, 5, ["a"], "x", .Unread⟩, ⟨2, 7, ["b"], "y", .Read⟩], 3, 9, 0⟩
        MessageFilter.new State.Read).2.map Message.timestamp).Pairwise (· ≥ ·) ∧
    ((Database.delete_messages ⟨[⟨1, 5, ["a"], "x", .Unread⟩, ⟨2, 7, ["b"], "y", .Read⟩], 3, 9, 0⟩
        MessageFilter.new).2.map Message.timestamp).Pairwise (· ≥ ·) :=
  query_result_ordering _ _ _ (by decide)

/-- C4: a batch containing a message with empty content makes add_messages
fail with the validation error, with the store (including its statement
count: no insert query is issued) left unchanged. -/
theorem add_messages_empty_content (db : DbState) (msgs : List NewMessage)
    (h : ∃ m ∈ msgs, m.content = "") :
    Database.add_messages db msgs = (db, .error "content must not be empty") := by
  obtain ⟨m, hm, hcont⟩ := h
  have hne : msgs ≠ [] := by rintro rfl; exact absurd hm (List.not_mem_nil m)
  have hall : ¬(msgs.reverse.all (fun m => !(m.content == "")) = true) := by
    rw [List.all_eq_true]
    push_neg
    exact ⟨m, by simpa using hm, by simp [hcont]⟩
  unfold Database.add_messages
  rw [if_neg hne, if_neg hall]

/-- Witness for C4: one message with empty content. -/
theorem add_messages_empty_content_witness :
    Database.add_messages ⟨[], 1, 0, 0⟩ [⟨["mailbox"], "", none⟩] =
      (⟨[], 1, 0, 0⟩, .error "content must not be empty") :=
  add_messages_empty_content _ _ ⟨⟨["mailbox"], "", none⟩, by simp, rfl⟩

/-- C3: when the DELETE /messages query string parses to a filter that
matches all messages (for example the empty query string, which parses to
the empty filter), the route answers 400 and leaves the store untouched
(its delete operation, which would bump the statement count, is never
invoked); and matches_all holds exactly when no filter field is present. -/
theorem delete_route_rejects_unconstrained (db : DbState) (q : QueryFilter)
    (mf : MessageFilter) (hq : q.tryIntoMessageFilter = some mf)
    (hall : mf.matches_all = true) :
    delete_messages_route db q = (400, db) ∧
    (∀ f : MessageFilter, f.matches_all = true ↔
      f.ids = none ∧ f.mailbox = none ∧ f.states = none) ∧
    QueryFilter.tryIntoMessageFilter ⟨none, none, none⟩ = some MessageFilter.new := by
  refine ⟨?_, ?_, rfl⟩
  · unfold delete_messages_route
    rw [hq]
    simp [hall]
  · intro f
    rcases f with ⟨ids, mailbox, states⟩
    unfold MessageFilter.matches_all
    cases ids <;> cases mailbox <;> cases states <;> simp

/-- Witness for C3: an empty query string against a concrete store. -/
theorem delete_route_rejects_unconstrained_witness :
    delete_messages_route ⟨[⟨1, 5, ["a"], "x", .Unread⟩], 2, 9, 0⟩ ⟨none, none, none⟩ =
      (400, ⟨[⟨1, 5, ["a"], "x", .Unread⟩], 2, 9, 0⟩) ∧
    (∀ f : MessageFilter, f.matches_all = true ↔
      f.ids = none ∧ f.mailbox = none ∧ f.states = none) ∧
    QueryFilter.tryIntoMessageFilter ⟨none, none, none⟩ = some MessageFilter.new :=
  delete_route_rejects_unconstrained _ _ MessageFilter.new rfl rfl

theorem eq_of_perm_of_sorted_key {α : Type} (key : α → Int) :
    ∀ {l1 l2 : List α}, l1.Perm l2 →
      l1.Pairwise (fun a b => key b ≤ key a) →
      l2.Pairwise (fun a b => key b ≤ key a) →
      (l1.map key).Nodup → l1 = l2 := by
  intro l1
  induction l1 with
  | nil =>
    intro l2 hp _ _ _
    exact (hp.symm.eq_nil).symm
  | cons a t1 ih =>
    intro l2 hp hs1 hs2 hnd
    cases l2 with
    | nil => exact absurd hp.length_eq (by simp)
    | cons b t2 =>
      have hnd' : (∀ x ∈ t1, ¬key x = key a) ∧ (List.map key t1).Nodup := by
        simpa using hnd
      by_cases hab : a = b
      · subst hab
        have ht := ih hp.cons_inv (List.pairwise_cons.mp hs1).2
          (List.pairwise_cons.mp hs2).2 hnd'.2
        rw [ht]
      · exfalso
        have hb1 : b ∈ t1 := by
          rcases List.mem_cons.mp (hp.mem_iff.mpr (List.mem_cons_self b t2)) with h | h
          · exact absurd h.symm hab
          · exact h
        have ha2 : a ∈ t2 := by
          rcases List.mem_cons.mp (hp.mem_iff.mp (List.mem_cons_self a t1)) with h | h
          · exact absurd h hab
          · exact h
        have h1 : key b ≤ key a := List.rel_of_pairwise_cons hs1 hb1
        have h2 : key a ≤ key b := List.rel_of_pairwise_cons hs2 ha2
        have heq : key a = key b := le_antisymm h2 h1
        exact hnd'.1 b hb1 heq.symm

theorem mergeSort_desc_of_ascending (l : List Message)
    (h : (l.map Message.id).Pairwise (· < ·)) :
    l.mergeSort (fun a b => decide (b.id ≤ a.id)) = l.reverse := by
  apply eq_of_perm_of_sorted_key Message.id
  · exact (List.mergeSort_perm l _).trans (List.reverse_perm l).symm
  · exact List.pairwise_map.mp (sortById_pairwise l)
  · rw [List.pairwise_reverse]
    exact List.pairwise_map.mp (h.imp le_of_lt)
  · exact ((List.mergeSort_perm l _).map Message.id).symm.nodup (h.imp ne_of_lt)

/-- C6: add_messages on an empty batch returns the unchanged store (no
query issued) and an empty result; on a non-empty valid batch it returns
rows matching the inputs one-to-one in the caller's order (missing states
defaulting to Unread), with ids assigned so that loading those ids back
(ordered by id descending) returns the batch in the caller's order. -/
theorem add_messages_order (db : DbState) (msgs : List NewMessage)
    (hwf : db.Wf) (hne : msgs ≠ []) (hc : ∀ m ∈ msgs, m.content ≠ "") :
    Database.add_messages db [] = (db, Except.ok []) ∧
    ∃ db2 ret, Database.add_messages db msgs = (db2, .ok ret) ∧
      ret.map Message.mailbox = msgs.map NewMessage.mailbox ∧
      ret.map Message.content = msgs.map NewMessage.content ∧
      ret.map Message.state = msgs.map (fun m => m.state.getD State.Unread) ∧
      Database.load_messages db2
        { ids := some (ret.map Message.id), mailbox := none, states := none } = ret := by
  have hall : msgs.reverse.all (fun m => !(m.content == "")) = true := by
    rw [List.all_eq_true]
    intro m hm
    simpa using hc m (List.mem_reverse.mp hm)
  refine ⟨rfl, ?_⟩
  unfold Database.add_messages
  rw [if_neg hne, if_pos hall]
  set mk : Nat × NewMessage → Message := fun p =>
    { id := db.nextId + p.1
      timestamp := db.now
      mailbox := p.2.mailbox
      content := p.2.content
      state := p.2.state.getD State.Unread } with hmk
  set inserted : List Message := (msgs.reverse).enum.map mk with hins
  have hproj : ∀ {β : Type} (g : Message → β) (h : NewMessage → β),
      (∀ p : Nat × NewMessage, g (mk p) = h p.2) →
      inserted.reverse.map g = msgs.map h := by
    intro β g h hgh
    rw [hins, List.map_reverse, List.map_map,
      show (g ∘ mk) = (h ∘ Prod.snd) from funext fun p => hgh p,
      ← List.map_map, List.enum_map_snd, ← List.map_reverse, List.reverse_reverse]
  have hidlt : (inserted.map Message.id).Pairwise (· < ·) := by
    rw [hins, List.map_map,
      show (Message.id ∘ mk) = (fun p : Nat × NewMessage => db.nextId + (p.1 : Int)) from rfl,
      List.pairwise_map]
    have henum : (msgs.reverse.enum.map Prod.fst).Pairwise (· < ·) := by
      rw [List.enum_map_fst]
      exact List.pairwise_lt_range _
    exact (List.pairwise_map.mp henum).imp (by intro a b hab; omega)
  refine ⟨_, _, rfl, hproj _ _ (fun p => rfl), hproj _ _ (fun p => rfl),
    hproj _ _ (fun p => rfl), ?_⟩
  unfold Database.load_messages
  have hmem_id : ∀ m ∈ inserted, db.nextId ≤ m.id := by
    intro m hm
    rw [hins] at hm
    obtain ⟨p, _, rfl⟩ := List.mem_map.mp hm
    show db.nextId ≤ db.nextId + (p.1 : Int)
    omega
  have hmatch : ∀ m : Message,
      MessageFilter.matches_message
        { ids := some (inserted.reverse.map Message.id), mailbox := none, states := none } m =
      (inserted.reverse.map Message.id).contains m.id := by
    intro m
    simp [MessageFilter.matches_message]
  have hfilter : (db.rows ++ inserted).filter (fun m =>
      MessageFilter.matches_message
        { ids := some (inserted.reverse.map Message.id), mailbox := none, states := none } m) =
      inserted := by
    rw [List.filter_append]
    have h1 : db.rows.filter (fun m =>
        MessageFilter.matches_message
          { ids := some (inserted.reverse.map Message.id), mailbox := none, states := none } m) =
        [] := by
      rw [List.filter_eq_nil_iff]
      intro m hm hcon
      rw [hmatch] at hcon
      have hmem : m.id ∈ inserted.reverse.map Message.id := by simpa using hcon
      obtain ⟨m2, hm2, hid⟩ := List.mem_map.mp hmem
      have hge := hmem_id m2 (List.mem_reverse.mp hm2)
      have hlt := hwf.2 m hm
      omega
    have h2 : inserted.filter (fun m =>
        MessageFilter.matches_message
          { ids := some (inserted.reverse.map Message.id), mailbox := none, states := none } m) =
        inserted := by
      rw [List.filter_eq_self]
      intro m hm
      rw [hmatch]
      simpa using List.mem_map_of_mem Message.id (List.mem_reverse.mpr hm)
    rw [h1, h2, List.nil_append]
  show ((db.rows ++ inserted).filter _).mergeSort _ = inserted.reverse
  rw [hfilter, mergeSort_desc_of_ascending inserted hidlt]

/-- Witness for C6 at the batch of spec scenario 1 against an empty store. -/
theorem add_messages_order_witness :
    Database.add_messages ⟨[], 1, 0, 0⟩ [] = (⟨[], 1, 0, 0⟩, Except.ok []) ∧
    ∃ db2 ret, Database.add_messages ⟨[], 1, 0, 0⟩
        [⟨["m2"], "x", none⟩, ⟨["m1"], "y", none⟩, ⟨["m1"], "z", none⟩] = (db2, .ok ret) ∧
      ret.map Message.mailbox =
        [⟨["m2"], "x", none⟩, ⟨["m1"], "y", none⟩,
          (⟨["m1"], "z", none⟩ : NewMessage)].map NewMessage.mailbox ∧
      ret.map Message.content =
        [⟨["m2"], "x", none⟩, ⟨["m1"], "y", none⟩,
          (⟨["m1"], "z", none⟩ : NewMessage)].map NewMessage.content ∧
      ret.map Message.state =
        [⟨["m2"], "x", none⟩, ⟨["m1"], "y", none⟩,
          (⟨["m1"], "z", none⟩ : NewMessage)].map (fun m => m.state.getD State.Unread) ∧
      Database.load_messages db2
        { ids := some (ret.map Message.id), mailbox := none, states := none } = ret :=
  add_messages_order ⟨[], 1, 0, 0⟩ _ (by decide) (by decide) (by decide)

/-! ### Lemmas and claims for the TUI -/

theorem iter_ancestors_nodup (m : Mailbox) : m.iter_ancestors.Nodup := by
  unfold Mailbox.iter_ancestors
  refine List.Nodup.map_on ?_ (List.nodup_range _)
  intro x hx y hy hxy
  rw [List.mem_range] at hx hy
  have hlx : (m.take (x + 1)).length = x + 1 := by
    rw [List.length_take]
    omega
  have hly : (m.take (y + 1)).length = y + 1 := by
    rw [List.length_take]
    omega
  have hxyl : x + 1 = y + 1 := by rw [← hlx, ← hly, hxy]
  omega

theorem foldl_bump_one (l : List Mailbox) (hnd : l.Nodup) (acc : Mailbox → Nat)
    (q : Mailbox) :
    (l.foldl (fun acc mb => fun x => if x = mb then acc x + 1 else acc x) acc) q =
      acc q + (if q ∈ l then 1 else 0) := by
  induction l generalizing acc with
  | nil => simp
  | cons a l ih =>
    rw [List.foldl_cons, ih (List.nodup_cons.mp hnd).2]
    by_cases h : q = a
    · subst h
      have hq : q ∉ l := (List.nodup_cons.mp hnd).1
      simp [hq]
    · simp [h]

theorem countDecreases_eq (messages : List Message) (mb : Mailbox) :
    countDecreases messages mb =
      (messages.filter (fun m => mb ∈ m.mailbox.iter_ancestors)).length := by
  suffices h : ∀ (msgs : List Message) (acc : Mailbox → Nat),
      (msgs.foldl
        (fun acc m => m.mailbox.iter_ancestors.foldl
          (fun acc mbx => fun x => if x = mbx then acc x + 1 else acc x) acc) acc) mb =
        acc mb + (msgs.filter (fun m => mb ∈ m.mailbox.iter_ancestors)).length by
    simpa [countDecreases] using h messages (fun _ => 0)
  intro msgs
  induction msgs with
  | nil => intro acc; simp
  | cons m ms ih =>
    intro acc
    rw [List.foldl_cons, ih, foldl_bump_one _ (iter_ancestors_nodup _), List.filter_cons]
    by_cases hm : mb ∈ m.mailbox.iter_ancestors
    · simp [hm]
      omega
    · simp [hm]

/-- C10: the optimistic mailbox-count update decrements each row by the
number of removed messages whose mailbox equals the row's mailbox or is a
descendant of it (i.e. has the row's mailbox among its ancestors), with
saturating Nat subtraction, and drops rows whose count reaches zero, so
every remaining row has a count of at least one. -/
theorem remove_messages_from_mailboxes_spec (rows : List MailboxRow)
    (messages : List Message) :
    (∀ mb, countDecreases messages mb =
      (messages.filter (fun m => mb ∈ m.mailbox.iter_ancestors)).length) ∧
    (∀ r', r' ∈ remove_messages_from_mailboxes rows messages ↔
      ∃ r ∈ rows, r'.mailbox = r.mailbox ∧ r'.depth = r.depth ∧
        r'.message_count = r.message_count - countDecreases messages r.mailbox ∧
        r.message_count - countDecreases messages r.mailbox ≠ 0) ∧
    (∀ r' ∈ remove_messages_from_mailboxes rows messages, 1 ≤ r'.message_count) := by
  have hmem : ∀ r', r' ∈ remove_messages_from_mailboxes rows messages ↔
      ∃ r ∈ rows, r'.mailbox = r.mailbox ∧ r'.depth = r.depth ∧
        r'.message_count = r.message_count - countDecreases messages r.mailbox ∧
        r.message_count - countDecreases messages r.mailbox ≠ 0 := by
    intro r'
    unfold remove_messages_from_mailboxes
    rw [List.mem_filterMap]
    constructor
    · rintro ⟨r, hr, hf⟩
      simp only at hf
      by_cases h0 : r.message_count - countDecreases messages r.mailbox = 0
      · rw [if_pos h0] at hf
        exact absurd hf (by simp)
      · rw [if_neg h0] at hf
        obtain rfl := Option.some.inj hf
        exact ⟨r, hr, rfl, rfl, rfl, h0⟩
    · rintro ⟨r, hr, h1, h2, h3, h4⟩
      refine ⟨r, hr, ?_⟩
      simp only
      rw [if_neg h4]
      rcases r' with ⟨a, d, c⟩
      simp only at h1 h2 h3
      rw [h1, h2, h3]
  refine ⟨countDecreases_eq messages, hmem, ?_⟩
  intro r' hr'
  obtain ⟨r, _, _, _, h3, h4⟩ := (hmem r').mp hr'
  omega

/-! lemmas for the worker trace model -/

theorem wstep_check (s : WorkerState) (t : Nat) :
    wstep s (.check t) =
      if s.reqId t = some s.counter then { s with sent := s.sent ++ [t] } else s := rfl

theorem wstep_check_counter (s : WorkerState) (t : Nat) :
    (wstep s (.check t)).counter = s.counter := by
  rw [wstep_check]
  split <;> rfl

theorem wstep_check_reqId (s : WorkerState) (t : Nat) :
    (wstep s (.check t)).reqId = s.reqId := by
  rw [wstep_check]
  split <;> rfl

theorem counter_mono (tr : List WEvent) (s : WorkerState) :
    s.counter ≤ (tr.foldl wstep s).counter := by
  induction tr generalizing s with
  | nil => exact Nat.le_refl _
  | cons e tr ih =>
    rw [List.foldl_cons]
    refine Nat.le_trans ?_ (ih (wstep s e))
    cases e with
    | start t => exact Nat.le_succ _
    | check t =>
      rw [wstep_check_counter]

theorem counter_strict (tr : List WEvent) (s : WorkerState) (t' : Nat)
    (h : WEvent.start t' ∈ tr) :
    s.counter + 1 ≤ (tr.foldl wstep s).counter := by
  induction tr generalizing s with
  | nil => exact absurd h (List.not_mem_nil _)
  | cons e tr ih =>
    rw [List.foldl_cons]
    rcases List.mem_cons.mp h with rfl | hmem
    · calc s.counter + 1 = (wstep s (.start t')).counter := rfl
        _ ≤ _ := counter_mono tr _
    · refine Nat.le_trans ?_ (ih (wstep s e) hmem)
      cases e with
      | start u =>
        show s.counter + 1 ≤ s.counter + 1 + 1
        omega
      | check u =>
        rw [wstep_check_counter]

theorem reqId_stable (tr : List WEvent) (s : WorkerState) (u : Nat)
    (h : WEvent.start u ∉ tr) :
    (tr.foldl wstep s).reqId u = s.reqId u := by
  induction tr generalizing s with
  | nil => rfl
  | cons e tr ih =>
    rw [List.foldl_cons]
    have hu : WEvent.start u ∉ tr := fun hm => h (List.mem_cons_of_mem _ hm)
    rw [ih (wstep s e) hu]
    cases e with
    | start t' =>
      have hne : u ≠ t' := by
        rintro rfl
        exact h (List.mem_cons_self _ _)
      show (if u = t' then some (s.counter + 1) else s.reqId u) = s.reqId u
      rw [if_neg hne]
    | check t' =>
      rw [wstep_check_reqId]

theorem sent_mem (tr : List WEvent) (s : WorkerState) (t : Nat)
    (h : t ∈ (tr.foldl wstep s).sent) :
    t ∈ s.sent ∨ WEvent.check t ∈ tr := by
  induction tr generalizing s with
  | nil => exact Or.inl h
  | cons e tr ih =>
    rw [List.foldl_cons] at h
    rcases ih (wstep s e) h with h1 | h1
    · cases e with
      | start u => exact Or.inl h1
      | check u =>
        rw [wstep_check] at h1
        split at h1
        · have h1' : t ∈ s.sent ++ [u] := h1
          rcases List.mem_append.mp h1' with h2 | h2
          · exact Or.inl h2
          · rw [List.mem_singleton] at h2
            subst h2
            exact Or.inr (List.mem_cons_self _ _)
        · exact Or.inl h1
    · exact Or.inr (List.mem_cons_of_mem _ h1)

/-- C9: a completed load response whose stamped request id no longer
equals the counter value at the moment it is checked is not sent; and in
any interleaving where another load of the same kind calls next() between
a task's start and its check, that task's response is dropped (its id is
never added to the sent responses). -/
theorem stale_load_dropped (a b : List WEvent) (t t2 : Nat)
    (s : WorkerState) (u : Nat)
    (hguard : s.reqId u ≠ some s.counter)
    (hbs : WEvent.start t ∉ b)
    (hca : WEvent.check t ∉ a)
    (hcb : WEvent.check t ∉ b)
    (hnew : WEvent.start t2 ∈ b) :
    (wstep s (.check u)).sent = s.sent ∧
    t ∉ (wrun (((a ++ [WEvent.start t]) ++ b) ++ [WEvent.check t])).sent := by
  constructor
  · rw [wstep_check, if_neg hguard]
  · have h1 : wrun ((a ++ [WEvent.start t]) ++ b) =
        b.foldl wstep (wstep (wrun a) (.start t)) := by
      unfold wrun
      rw [List.foldl_append, List.foldl_append]
      rfl
    have hfin : wrun (((a ++ [WEvent.start t]) ++ b) ++ [WEvent.check t]) =
        wstep (b.foldl wstep (wstep (wrun a) (.start t))) (.check t) := by
      show (((a ++ [WEvent.start t]) ++ b) ++ [WEvent.check t]).foldl wstep .init =
        wstep (b.foldl wstep (wstep (wrun a) (.start t))) (.check t)
      rw [List.foldl_append]
      rw [show ((a ++ [WEvent.start t]) ++ b).foldl wstep WorkerState.init =
        b.foldl wstep (wstep (wrun a) (.start t)) from h1]
      rfl
    rw [hfin]
    have hreq : (b.foldl wstep (wstep (wrun a) (.start t))).reqId t =
        some ((wrun a).counter + 1) := by
      rw [reqId_stable b _ t hbs]
      show (if t = t then some ((wrun a).counter + 1) else (wrun a).reqId t) = _
      rw [if_pos rfl]
    have hcnt : (wrun a).counter + 2 ≤ (b.foldl wstep (wstep (wrun a) (.start t))).counter := by
      have hstrict := counter_strict b (wstep (wrun a) (.start t)) t2 hnew
      have hc1 : (wstep (wrun a) (.start t)).counter = (wrun a).counter + 1 := rfl
      omega
    have hneq : (b.foldl wstep (wstep (wrun a) (.start t))).reqId t ≠
        some (b.foldl wstep (wstep (wrun a) (.start t))).counter := by
      rw [hreq]
      intro hcontra
      have := Option.some.inj hcontra
      omega
    rw [wstep_check, if_neg hneq]
    intro hmem
    rcases sent_mem b _ t hmem with h2 | h2
    · have h3 : t ∈ (wrun a).sent := h2
      rcases sent_mem a _ t h3 with h4 | h4
      · exact absurd h4 (List.not_mem_nil t)
      · exact hca h4
    · exact hcb h2

/-- Witness for C9: two loads of the same kind started back to back; the
first task's check happens after the second has started. -/
theorem stale_load_dropped_witness :
    (wstep WorkerState.init (.check 0)).sent = WorkerState.init.sent ∧
    0 ∉ (wrun ((([] ++ [WEvent.start 0]) ++ [WEvent.start 1]) ++ [WEvent.check 0])).sent :=
  stale_load_dropped [] [WEvent.start 1] 0 1 WorkerState.init 0
    (by simp [WorkerState.init]) (by decide) (by decide) (by decide) (by decide)

/-! lemmas for NavigableList::replace_items -/

theorem findSome?_eq_find?_bind (f : α → Option β) (l : List α) :
    l.findSome? f = (l.find? (fun a => (f a).isSome)).bind f := by
  induction l with
  | nil => rfl
  | cons a t ih =>
    cases hf : f a with
    | some b => simp [List.findSome?_cons, List.find?_cons, hf]
    | none => simp [List.findSome?_cons, List.find?_cons, hf, ih]

theorem mem_enum_get? {α : Type} {l : List α} {p : Nat × α} (h : p ∈ l.enum) :
    l.get? p.1 = some p.2 := by
  rcases p with ⟨i, x⟩
  rw [List.get?_eq_getElem?]
  exact List.mk_mem_enum_iff_getElem?.mp h

theorem enum_mem_of_mem {α : Type} {l : List α} {a : α} (h : a ∈ l) :
    ∃ i, (i, a) ∈ l.enum := by
  obtain ⟨⟨i, hi⟩, hget⟩ := List.mem_iff_get.mp h
  refine ⟨i, List.mk_mem_enum_iff_getElem?.mpr ?_⟩
  rw [List.getElem?_eq_getElem hi]
  exact congrArg some hget

theorem new_keys_isSome {α : Type} (key : α → Nat) (new_items : List α) (k : Nat) :
    (NavigableList.new_keys key new_items k).isSome = (new_items.map key).contains k := by
  unfold NavigableList.new_keys
  rcases hf : (new_items.enum.filter (fun p => key p.2 == k)).getLast? with _ | q
  · rw [hf]
    rw [List.getLast?_eq_none_iff] at hf
    simp only [Option.map_none', Option.isSome_none]
    symm
    rw [Bool.eq_false_iff]
    intro hcon
    have hk : k ∈ new_items.map key := by simpa using hcon
    obtain ⟨a, ha, hka⟩ := List.mem_map.mp hk
    obtain ⟨i, hienum⟩ := enum_mem_of_mem ha
    have hmemf : ((i, a) : Nat × α) ∈ new_items.enum.filter (fun p => key p.2 == k) := by
      rw [List.mem_filter]
      exact ⟨hienum, by simpa using hka⟩
    rw [hf] at hmemf
    exact List.not_mem_nil _ hmemf
  · have hq : q ∈ new_items.enum.filter (fun p => key p.2 == k) := by
      rcases List.getLast?_eq_some_iff.mp hf with ⟨ys, hys⟩
      rw [hys]
      simp
    rw [List.mem_filter] at hq
    have hk : key q.2 = k := by simpa using hq.2
    have hq2mem : q.2 ∈ new_items := List.get?_mem (mem_enum_get? hq.1)
    have hmem : k ∈ new_items.map key := hk ▸ List.mem_map_of_mem key hq2mem
    rw [hf]
    simp only [Option.map_some', Option.isSome_some]
    exact ((by simpa using hmem : (new_items.map key).contains k = true)).symm

theorem new_keys_some {α : Type} (key : α → Nat) (new_items : List α) (k j : Nat)
    (h : NavigableList.new_keys key new_items k = some j) :
    ∃ a, new_items.get? j = some a ∧ key a = k := by
  unfold NavigableList.new_keys at h
  rcases hf : (new_items.enum.filter (fun p => key p.2 == k)).getLast? with _ | q
  · rw [hf] at h
    exact absurd h (by simp)
  · rw [hf] at h
    have hj : q.1 = j := by simpa using h
    have hq : q ∈ new_items.enum.filter (fun p => key p.2 == k) := by
      rcases List.getLast?_eq_some_iff.mp hf with ⟨ys, hys⟩
      rw [hys]
      simp
    rw [List.mem_filter] at hq
    refine ⟨q.2, ?_, by simpa using hq.2⟩
    rw [← hj]
    exact mem_enum_get? hq.1

/-- C8 counterexample: items [1,2,3] with key = identity and the cursor on
index 1 (key 2); new items [3].  The old cursor item's key 2 is absent
from the new items' keys, yet the post-call cursor is present (index 0,
the item with key 3), where the claim requires the cursor to be absent. -/
theorem replace_items_counterexample :
    (NavigableList.replace_items (fun x => x) ⟨[1, 2, 3], some 1⟩ [3]).cursor = some 0 ∧
    ((⟨[1, 2, 3], some 1⟩ : NList Nat).items.get? 1).map (fun x => x) = some 2 ∧
    (2 : Nat) ∉ ([3] : List Nat).map (fun x => x) ∧
    ¬(NavigableList.replace_items (fun x => x) ⟨[1, 2, 3], some 1⟩ [3]).cursor = none := by
  decide

/-- C8 (amended): after replace_items with a present cursor, the new
cursor is determined by scanning the old items from the old cursor
position forward for the first key that occurs among the new items' keys:
if no such key exists the cursor is absent, and otherwise the cursor
points at an item of the new list carrying that first surviving key (in
particular, when the old cursor item's own key survives, the cursor
follows it). -/
theorem replace_items_cursor {α : Type} (key : α → Nat) (l : NList α)
    (new_items : List α) (i : Nat) (hc : l.cursor = some i) :
    (((l.items.drop i).map key).find?
        (fun k => (new_items.map key).contains k) = none →
      (NavigableList.replace_items key l new_items).cursor = none) ∧
    (∀ k, ((l.items.drop i).map key).find?
        (fun k => (new_items.map key).contains k) = some k →
      ∃ j a, (NavigableList.replace_items key l new_items).cursor = some j ∧
        new_items.get? j = some a ∧ key a = k) := by
  have hcur : (NavigableList.replace_items key l new_items).cursor =
      (((l.items.drop i).map key).find?
        (fun k => (new_items.map key).contains k)).bind
        (NavigableList.new_keys key new_items) := by
    simp only [NavigableList.replace_items, hc]
    rw [findSome?_eq_find?_bind]
    have hpred : (fun k => (NavigableList.new_keys key new_items k).isSome) =
        (fun k => (new_items.map key).contains k) :=
      funext fun k => new_keys_isSome key new_items k
    rw [hpred]
  constructor
  · intro h
    rw [hcur, h]
    rfl
  · intro k h
    rw [hcur, h]
    have hsome : (NavigableList.new_keys key new_items k).isSome = true := by
      rw [new_keys_isSome]
      exact List.find?_some h
    rcases ho : NavigableList.new_keys key new_items k with _ | j
    · rw [ho] at hsome
      exact absurd hsome (by simp)
    · obtain ⟨a, hga, hka⟩ := new_keys_some key new_items k j ho
      exact ⟨j, a, ho, hga, hka⟩

/-- Witness for the amended C8 at the counterexample's input. -/
theorem replace_items_cursor_witness :
    ((((⟨[1, 2, 3], some 1⟩ : NList Nat).items.drop 1).map (fun x => x)).find?
        (fun k => (([3].map (fun x => x)).contains k)) = none →
      (NavigableList.replace_items (fun x => x)
        (⟨[1, 2, 3], some 1⟩ : NList Nat) [3]).cursor = none) ∧
    (∀ k, (((⟨[1, 2, 3], some 1⟩ : NList Nat).items.drop 1).map (fun x => x)).find?
        (fun k => (([3].map (fun x => x)).contains k)) = some k →
      ∃ j a, (NavigableList.replace_items (fun x => x)
          (⟨[1, 2, 3], some 1⟩ : NList Nat) [3]).cursor = some j ∧
        [3].get? j = some a ∧ (fun x : Nat => x) a = k) :=
  replace_items_cursor (fun x => x) ⟨[1, 2, 3], some 1⟩ [3] 1 rfl

/-! lemmas for App::build_mailbox_list -/

theorem iter_ancestors_length (m : Mailbox) : m.iter_ancestors.length = m.length := by
  unfold Mailbox.iter_ancestors
  simp

theorem iter_ancestors_get? (m : Mailbox) (i : Nat) (h : i < m.length) :
    m.iter_ancestors.get? i = some (m.take (i + 1)) := by
  unfold Mailbox.iter_ancestors
  rw [List.get?_eq_getElem?]
  simp [List.getElem?_map, List.getElem?_range, h]

theorem bumpRow_mailboxes (rows : List MailboxRow) (name : Mailbox) (depth count : Nat) :
    (bumpRow rows name depth count).map (fun r => r.mailbox) =
      if name ∈ rows.map (fun r => r.mailbox) then rows.map (fun r => r.mailbox)
      else rows.map (fun r => r.mailbox) ++ [name] := by
  induction rows with
  | nil => simp [bumpRow]
  | cons r rs ih =>
    by_cases h : r.mailbox = name
    · simp [bumpRow, h]
    · simp only [bumpRow, if_neg h, List.map_cons, ih]
      by_cases hm : name ∈ rs.map (fun r => r.mailbox)
      · simp [hm, h]
      · rw [if_neg hm, if_neg ?_, List.cons_append]
        simp only [List.mem_cons]
        push_neg
        exact ⟨fun hEq => h hEq.symm, hm⟩

theorem bumpRow_key_mem (rows : List MailboxRow) (name : Mailbox) (depth count : Nat)
    (a : Mailbox) :
    (a ∈ (bumpRow rows name depth count).map (fun r => r.mailbox)) ↔
      (a ∈ rows.map (fun r => r.mailbox) ∨ a = name) := by
  rw [bumpRow_mailboxes]
  split
  · next hm =>
    constructor
    · exact Or.inl
    · rintro (h | rfl)
      · exact h
      · exact hm
  · next hm =>
    rw [List.mem_append, List.mem_singleton]

theorem bumpRow_nodup (rows : List MailboxRow) (name : Mailbox) (depth count : Nat)
    (h : (rows.map (fun r => r.mailbox)).Nodup) :
    ((bumpRow rows name depth count).map (fun r => r.mailbox)).Nodup := by
  rw [bumpRow_mailboxes]
  split
  · exact h
  · next hm =>
    rw [List.nodup_append]
    refine ⟨h, List.nodup_singleton _, ?_⟩
    intro x hx hx2
    rw [List.mem_singleton] at hx2
    subst hx2
    exact hm hx

theorem bumpRow_forall (P : MailboxRow → Prop) :
    ∀ (rows : List MailboxRow) (name : Mailbox) (depth count : Nat),
      (rows.map (fun r => r.mailbox)).Nodup →
      (∀ r ∈ rows, r.mailbox ≠ name → P r) →
      (∀ r ∈ rows, r.mailbox = name → P ⟨name, r.depth, r.message_count + count⟩) →
      (name ∉ rows.map (fun r => r.mailbox) → P ⟨name, depth, count⟩) →
      ∀ r' ∈ bumpRow rows name depth count, P r' := by
  intro rows
  induction rows with
  | nil =>
    intro name depth count _ _ _ hnew r' hr'
    rw [show bumpRow [] name depth count = [⟨name, depth, count⟩] from rfl,
      List.mem_singleton] at hr'
    subst hr'
    exact hnew (by simp)
  | cons r rs ih =>
    intro name depth count hnd hkeep hupd hnew r' hr'
    rw [List.map_cons, List.nodup_cons] at hnd
    by_cases h : r.mailbox = name
    · rw [show bumpRow (r :: rs) name depth count =
        ⟨r.mailbox, r.depth, r.message_count + count⟩ :: rs from by
          rw [bumpRow, if_pos h]] at hr'
      rcases List.mem_cons.mp hr' with rfl | hmem
      · rw [h]
        exact hupd r (List.mem_cons_self _ _) h
      · have hnotin : name ∉ rs.map (fun r => r.mailbox) := h ▸ hnd.1
        have hne : r'.mailbox ≠ name := fun hEq =>
          hnotin (hEq ▸ List.mem_map_of_mem _ hmem)
        exact hkeep r' (List.mem_cons_of_mem _ hmem) hne
    · rw [show bumpRow (r :: rs) name depth count =
        r :: bumpRow rs name depth count from by rw [bumpRow, if_neg h]] at hr'
      rcases List.mem_cons.mp hr' with rfl | hmem
      · exact hkeep r' (List.mem_cons_self _ _) h
      · refine ih name depth count hnd.2
          (fun x hx hxn => hkeep x (List.mem_cons_of_mem _ hx) hxn)
          (fun x hx hxn => hupd x (List.mem_cons_of_mem _ hx) hxn)
          (fun hno => hnew ?_) r' hmem
        rw [List.map_cons, List.mem_cons]
        push_neg
        exact ⟨fun hEq => h hEq.symm, hno⟩

theorem foldBump_nodup (pairs : List (Nat × Mailbox)) :
    ∀ (rows : List MailboxRow) (cnt : Nat),
      (rows.map (fun r => r.mailbox)).Nodup →
      ((pairs.foldl (fun rows p => bumpRow rows p.2 p.1 cnt) rows).map
        (fun r => r.mailbox)).Nodup := by
  induction pairs with
  | nil => intro rows cnt h; exact h
  | cons p ps ih =>
    intro rows cnt h
    rw [List.foldl_cons]
    exact ih _ cnt (bumpRow_nodup rows p.2 p.1 cnt h)

theorem foldBump_keys (pairs : List (Nat × Mailbox)) :
    ∀ (rows : List MailboxRow) (cnt : Nat) (a : Mailbox),
      (a ∈ (pairs.foldl (fun rows p => bumpRow rows p.2 p.1 cnt) rows).map
        (fun r => r.mailbox)) ↔
      (a ∈ rows.map (fun r => r.mailbox) ∨ a ∈ pairs.map Prod.snd) := by
  induction pairs with
  | nil => intro rows cnt a; simp
  | cons p ps ih =>
    intro rows cnt a
    rw [List.foldl_cons, ih, bumpRow_key_mem, List.map_cons, List.mem_cons]
    tauto

theorem foldBump_count (pairs : List (Nat × Mailbox)) :
    ∀ (rows : List MailboxRow) (cnt : Nat) (C : Mailbox → Nat),
      (rows.map (fun r => r.mailbox)).Nodup →
      (pairs.map Prod.snd).Nodup →
      (∀ r ∈ rows, r.message_count = C r.mailbox) →
      (∀ a, a ∉ rows.map (fun r => r.mailbox) → C a = 0) →
      ∀ r' ∈ pairs.foldl (fun rows p => bumpRow rows p.2 p.1 cnt) rows,
        r'.message_count =
          C r'.mailbox + (if r'.mailbox ∈ pairs.map Prod.snd then cnt else 0) := by
  induction pairs with
  | nil =>
    intro rows cnt C _ _ hinv _ r' hr'
    simpa using hinv r' hr'
  | cons p ps ih =>
    intro rows cnt C hnd hsnd hinv habs r' hr'
    rw [List.foldl_cons] at hr'
    rw [List.map_cons, List.nodup_cons] at hsnd
    have hinv' : ∀ r ∈ bumpRow rows p.2 p.1 cnt,
        r.message_count = C r.mailbox + (if r.mailbox = p.2 then cnt else 0) := by
      refine bumpRow_forall _ rows p.2 p.1 cnt hnd ?_ ?_ ?_
      · intro r hr hrn
        rw [if_neg hrn, hinv r hr]
        omega
      · intro r hr hrn
        show r.message_count + cnt = C p.2 + _
        rw [if_pos rfl, hinv r hr, hrn]
      · intro hno
        show cnt = C p.2 + _
        rw [if_pos rfl, habs p.2 hno]
        omega
    have habs' : ∀ a, a ∉ (bumpRow rows p.2 p.1 cnt).map (fun r => r.mailbox) →
        C a + (if a = p.2 then cnt else 0) = 0 := by
      intro a ha
      rw [bumpRow_key_mem] at ha
      push_neg at ha
      rw [if_neg ha.2, habs a ha.1]
    have hfin : r'.message_count = C r'.mailbox + (if r'.mailbox = p.2 then cnt else 0) +
        (if r'.mailbox ∈ ps.map Prod.snd then cnt else 0) :=
      ih (bumpRow rows p.2 p.1 cnt) cnt
        (fun a => C a + (if a = p.2 then cnt else 0))
        (bumpRow_nodup rows p.2 p.1 cnt hnd) hsnd.2 hinv' habs' r' hr'
    rw [hfin]
    simp only [List.map_cons, List.mem_cons]
    by_cases hrp : r'.mailbox = p.2
    · have hnotps : r'.mailbox ∉ ps.map Prod.snd := hrp ▸ hsnd.1
      rw [if_pos hrp, if_neg hnotps, if_pos (Or.inl hrp)]
      omega
    · rw [if_neg hrp]
      by_cases hps : r'.mailbox ∈ ps.map Prod.snd
      · rw [if_pos hps, if_pos (Or.inr hps)]
        omega
      · have hnotor : ¬(r'.mailbox = p.2 ∨ r'.mailbox ∈ ps.map Prod.snd) := by
          push_neg
          exact ⟨hrp, hps⟩
        rw [if_neg hps, if_neg hnotor]

theorem foldBump_depth (pairs : List (Nat × Mailbox)) :
    ∀ (rows : List MailboxRow) (cnt : Nat),
      (rows.map (fun r => r.mailbox)).Nodup →
      (∀ p ∈ pairs, (p.2 : Mailbox).length = p.1 + 1) →
      (∀ r ∈ rows, r.mailbox.length = r.depth + 1) →
      ∀ r' ∈ pairs.foldl (fun rows p => bumpRow rows p.2 p.1 cnt) rows,
        r'.mailbox.length = r'.depth + 1 := by
  induction pairs with
  | nil => intro rows cnt _ _ hinv r' hr'; exact hinv r' hr'
  | cons p ps ih =>
    intro rows cnt hnd hp hinv r' hr'
    rw [List.foldl_cons] at hr'
    refine ih (bumpRow rows p.2 p.1 cnt) cnt (bumpRow_nodup rows p.2 p.1 cnt hnd)
      (fun q hq => hp q (List.mem_cons_of_mem _ hq)) ?_ r' hr'
    refine bumpRow_forall _ rows p.2 p.1 cnt hnd ?_ ?_ ?_
    · intro r hr _
      exact hinv r hr
    · intro r hr hrn
      show p.2.length = r.depth + 1
      rw [← hrn]
      exact hinv r hr
    · intro _
      exact hp p (List.mem_cons_self _ _)

theorem ancestors_enum_cond (m : Mailbox) :
    ∀ p ∈ m.iter_ancestors.enum, (p.2 : Mailbox).length = p.1 + 1 := by
  rintro ⟨i, x⟩ hp
  have hg := mem_enum_get? hp
  have hlt : i < m.iter_ancestors.length := (List.mem_enum hp).1
  rw [iter_ancestors_length] at hlt
  rw [iter_ancestors_get? m i hlt] at hg
  have hx : x = List.take (i + 1) m := (Option.some.inj hg).symm
  show x.length = i + 1
  rw [hx, List.length_take]
  omega

theorem countFor_cons (i : MailboxInfo) (is : List MailboxInfo) (a : Mailbox) :
    countFor (i :: is) a =
      (if a ∈ i.name.iter_ancestors then i.message_count else 0) + countFor is a := by
  unfold countFor
  rw [List.filter_cons]
  by_cases h : a ∈ i.name.iter_ancestors
  · simp [h]
  · simp [h]

theorem foldAdd_nodup (infos : List MailboxInfo) :
    ∀ rows : List MailboxRow, (rows.map (fun r => r.mailbox)).Nodup →
      ((infos.foldl addMailboxInfo rows).map (fun r => r.mailbox)).Nodup := by
  induction infos with
  | nil => intro rows h; exact h
  | cons i is ih =>
    intro rows h
    rw [List.foldl_cons]
    exact ih _ (foldBump_nodup (i.name.iter_ancestors.enum) rows i.message_count h)

theorem foldAdd_keys (infos : List MailboxInfo) :
    ∀ (rows : List MailboxRow) (a : Mailbox),
      (a ∈ (infos.foldl addMailboxInfo rows).map (fun r => r.mailbox)) ↔
      (a ∈ rows.map (fun r => r.mailbox) ∨ ∃ i ∈ infos, a ∈ i.name.iter_ancestors) := by
  induction infos with
  | nil => intro rows a; simp
  | cons i is ih =>
    intro rows a
    rw [List.foldl_cons, ih]
    have hb := foldBump_keys (i.name.iter_ancestors.enum) rows i.message_count a
    rw [List.enum_map_snd] at hb
    have hb' : (a ∈ (addMailboxInfo rows i).map (fun r => r.mailbox)) ↔
        (a ∈ rows.map (fun r => r.mailbox) ∨ a ∈ i.name.iter_ancestors) := hb
    rw [hb']
    constructor
    · rintro ((h | h) | ⟨j, hj, hja⟩)
      · exact Or.inl h
      · exact Or.inr ⟨i, List.mem_cons_self _ _, h⟩
      · exact Or.inr ⟨j, List.mem_cons_of_mem _ hj, hja⟩
    · rintro (h | ⟨j, hj, hja⟩)
      · exact Or.inl (Or.inl h)
      · rcases List.mem_cons.mp hj with rfl | hj2
        · exact Or.inl (Or.inr hja)
        · exact Or.inr ⟨j, hj2, hja⟩

theorem foldAdd_depth (infos : List MailboxInfo) :
    ∀ rows : List MailboxRow, (rows.map (fun r => r.mailbox)).Nodup →
      (∀ r ∈ rows, r.mailbox.length = r.depth + 1) →
      ∀ r' ∈ infos.foldl addMailboxInfo rows, r'.mailbox.length = r'.depth + 1 := by
  induction infos with
  | nil => intro rows _ h; exact h
  | cons i is ih =>
    intro rows hnd hinv
    rw [List.foldl_cons]
    exact ih _ (foldBump_nodup (i.name.iter_ancestors.enum) rows i.message_count hnd)
      (foldBump_depth (i.name.iter_ancestors.enum) rows i.message_count hnd
        (ancestors_enum_cond i.name) hinv)

theorem foldAdd_count (infos : List MailboxInfo) :
    ∀ (rows : List MailboxRow) (C : Mailbox → Nat),
      (rows.map (fun r => r.mailbox)).Nodup →
      (∀ r ∈ rows, r.message_count = C r.mailbox) →
      (∀ a, a ∉ rows.map (fun r => r.mailbox) → C a = 0) →
      ∀ r' ∈ infos.foldl addMailboxInfo rows,
        r'.message_count = C r'.mailbox + countFor infos r'.mailbox := by
  induction infos with
  | nil =>
    intro rows C _ hinv _ r' hr'
    rw [hinv r' hr']
    simp [countFor]
  | cons i is ih =>
    intro rows C hnd hinv habs r' hr'
    rw [List.foldl_cons] at hr'
    have hsnd : ((i.name.iter_ancestors.enum).map Prod.snd).Nodup := by
      rw [List.enum_map_snd]
      exact iter_ancestors_nodup _
    have hinv' : ∀ r ∈ addMailboxInfo rows i,
        r.message_count = C r.mailbox +
          (if r.mailbox ∈ i.name.iter_ancestors then i.message_count else 0) := by
      intro r hr
      have hstep := foldBump_count (i.name.iter_ancestors.enum) rows i.message_count C
        hnd hsnd hinv habs r hr
      simpa only [List.enum_map_snd] using hstep
    have habs' : ∀ a, a ∉ (addMailboxInfo rows i).map (fun r => r.mailbox) →
        C a + (if a ∈ i.name.iter_ancestors then i.message_count else 0) = 0 := by
      intro a ha
      have hk := foldBump_keys (i.name.iter_ancestors.enum) rows i.message_count a
      rw [List.enum_map_snd] at hk
      have hnor : ¬(a ∈ rows.map (fun r => r.mailbox) ∨ a ∈ i.name.iter_ancestors) :=
        fun hor => ha (hk.mpr hor)
      push_neg at hnor
      rw [if_neg hnor.2, habs a hnor.1]
    have hfin : r'.message_count = C r'.mailbox +
        (if r'.mailbox ∈ i.name.iter_ancestors then i.message_count else 0) +
        countFor is r'.mailbox :=
      ih (addMailboxInfo rows i)
        (fun a => C a + (if a ∈ i.name.iter_ancestors then i.message_count else 0))
        (foldBump_nodup (i.name.iter_ancestors.enum) rows i.message_count hnd)
        hinv' habs' r' hr'
    rw [hfin, countFor_cons]
    omega

/-- C5: build_mailbox_list returns one row per distinct ancestor mailbox
of the input entries (no duplicates, no other rows), sorted by mailbox
name ascending; a row's depth counts its proper ancestors (the row's
ancestor chain, itself included, has length depth + 1, so a root has
depth 0); and a row's message_count is the summed count of the input
entries whose mailbox equals the row's mailbox or descends from it
(has it among its ancestors). -/
theorem build_mailbox_list_spec (infos : List MailboxInfo) :
    ((build_mailbox_list infos).map (fun r => r.mailbox)).Nodup ∧
    (build_mailbox_list infos).Pairwise (fun r1 r2 => rowNameLe r1 r2 = true) ∧
    (∀ r ∈ build_mailbox_list infos, ∃ i ∈ infos, r.mailbox ∈ i.name.iter_ancestors) ∧
    (∀ i ∈ infos, ∀ a ∈ i.name.iter_ancestors,
      ∃ r ∈ build_mailbox_list infos, r.mailbox = a) ∧
    (∀ r ∈ build_mailbox_list infos, r.depth + 1 = r.mailbox.iter_ancestors.length) ∧
    (∀ r ∈ build_mailbox_list infos, r.message_count = countFor infos r.mailbox) := by
  have hperm : (build_mailbox_list infos).Perm (infos.foldl addMailboxInfo []) :=
    List.mergeSort_perm _ _
  have hnodupB : ((infos.foldl addMailboxInfo []).map (fun r => r.mailbox)).Nodup :=
    foldAdd_nodup infos [] (by simp)
  refine ⟨?_, ?_, ?_, ?_, ?_, ?_⟩
  · exact ((hperm.map _).symm).nodup hnodupB
  · exact @List.sorted_mergeSort MailboxRow rowNameLe
      (by
        intro x y z hxy hyz
        simp only [rowNameLe, decide_eq_true_eq] at *
        exact le_trans hxy hyz)
      (by
        intro x y
        simp only [rowNameLe, Bool.or_eq_true, decide_eq_true_eq]
        exact le_total _ _)
      _
  · intro r hr
    have hrB : r ∈ infos.foldl addMailboxInfo [] := hperm.mem_iff.mp hr
    have hkey : r.mailbox ∈ (infos.foldl addMailboxInfo []).map (fun r => r.mailbox) :=
      List.mem_map_of_mem _ hrB
    rcases (foldAdd_keys infos [] r.mailbox).mp hkey with h | h
    · simp at h
    · exact h
  · intro i hi a ha
    have hmem : a ∈ (infos.foldl addMailboxInfo []).map (fun r => r.mailbox) :=
      (foldAdd_keys infos [] a).mpr (Or.inr ⟨i, hi, ha⟩)
    obtain ⟨r, hrB, hra⟩ := List.mem_map.mp hmem
    exact ⟨r, hperm.mem_iff.mpr hrB, hra⟩
  · intro r hr
    have hrB := hperm.mem_iff.mp hr
    have hd := foldAdd_depth infos [] (by simp) (by simp) r hrB
    rw [iter_ancestors_length]
    omega
  · intro r hr
    have hrB := hperm.mem_iff.mp hr
    have hcount := foldAdd_count infos [] (fun _ => 0) (by simp) (by simp)
      (fun a _ => rfl) r hrB
    simpa using hcount
